import Mathlib

/-!
Verification of the AWS-SQS-LITE message broker against its specification.

The development shallowly embeds the durable message store
(`internal/queue/store/postgres/postgres.go` together with the schema in
`migrations/0001_init.sql`), the HTTP edge handlers (`internal/api/http.go`)
and the sweeper loop (`internal/sweeper`) as pure Lean functions over an
explicit database state.  Timestamps and durations are integers (milliseconds);
the storage engine clock `now()` is passed explicitly.  Fallible paths
(constraint violations, invalid JSON reaching the `JSONB` cast, a negative SQL
`LIMIT`) return `Option`.
-/

namespace SqsLite

/-! ### The JSONB value model

The `body` column of the `messages` table is declared `JSONB`
(`migrations/0001_init.sql`).  Postgres stores a `JSONB` value in parsed form:
insignificant whitespace is dropped, object keys are kept sorted (by length,
then bytewise) and deduplicated keeping the last occurrence, and the text
output function re-renders the stored value with a single canonical layout
(`", "` between members, `": "` after keys).  We model this engine behaviour
on a JSON subset sufficient for the round-trip claims: integer numbers and
escape-free strings; inputs outside the subset simply fail to parse, which the
embedding treats as a storage error on insert. -/

inductive Json where
  | null : Json
  | bool : Bool → Json
  | num : Int → Json
  | str : String → Json
  | arr : List Json → Json
  | obj : List (String × Json) → Json

/-- Bytewise (codepoint) order on key characters; on UTF-8 data codepoint
order and byte order agree. -/
def charListLt : List Char → List Char → Bool
  | [], [] => false
  | [], _ :: _ => true
  | _ :: _, [] => false
  | c :: cs, d :: ds =>
    if c.toNat < d.toNat then true
    else if d.toNat < c.toNat then false
    else charListLt cs ds

/-- The jsonb object-key order: shorter keys first, equal lengths bytewise. -/
def keyLt (a b : String) : Bool :=
  decide (a.length < b.length) ||
    (decide (a.length = b.length) && charListLt a.toList b.toList)

/-- Insert a field into a key-sorted association list, replacing an existing
binding (jsonb keeps the last value bound to a duplicated key). -/
def objInsert (k : String) (v : Json) : List (String × Json) → List (String × Json)
  | [] => [(k, v)]
  | (k', v') :: rest =>
    if k = k' then (k, v) :: rest
    else if keyLt k k' then (k, v) :: (k', v') :: rest
    else (k', v') :: objInsert k v rest

/-- Whitespace skipping between JSON tokens. -/
def skipWs : List Char → List Char
  | [] => []
  | c :: rest =>
    if c = ' ' ∨ c = '\t' ∨ c = '\n' ∨ c = '\r' then skipWs rest else c :: rest

def isDigit (c : Char) : Bool := decide ('0' ≤ c) && decide (c ≤ '9')

def takeDigits : List Char → List Char × List Char
  | [] => ([], [])
  | c :: rest =>
    if isDigit c then
      let (ds, r) := takeDigits rest
      (c :: ds, r)
    else ([], c :: rest)

def digitsToNat (ds : List Char) : Nat :=
  ds.foldl (fun acc c => acc * 10 + (c.toNat - '0'.toNat)) 0

/-- JSON forbids redundant leading zeros in number literals. -/
def noLeadingZero : List Char → Bool
  | '0' :: _ :: _ => false
  | _ => true

/-- The modelled number subset is integers: a fraction or exponent marker
after the digits makes the parse fail. -/
def numBoundary : List Char → Bool
  | [] => true
  | c :: _ => !(c = '.' || c = 'e' || c = 'E')

def parseNum : List Char → Option (Int × List Char)
  | '-' :: rest =>
    match takeDigits rest with
    | ([], _) => none
    | (ds, r) =>
      if noLeadingZero ds && numBoundary r then some (-(digitsToNat ds : Int), r) else none
  | s =>
    match takeDigits s with
    | ([], _) => none
    | (ds, r) =>
      if noLeadingZero ds && numBoundary r then some ((digitsToNat ds : Int), r) else none

/-- Consume the characters of a string literal up to the closing quote.
Escape sequences are outside the modelled subset. -/
def takeStringChars : List Char → Option (List Char × List Char)
  | [] => none
  | c :: rest =>
    if c = '"' then some ([], rest)
    else if c = '\\' then none
    else
      match takeStringChars rest with
      | some (cs, r) => some (c :: cs, r)
      | none => none

mutual

def parseVal : Nat → List Char → Option (Json × List Char)
  | 0, _ => none
  | Nat.succ fuel, s =>
    match skipWs s with
    | 'n' :: 'u' :: 'l' :: 'l' :: rest => some (Json.null, rest)
    | 't' :: 'r' :: 'u' :: 'e' :: rest => some (Json.bool true, rest)
    | 'f' :: 'a' :: 'l' :: 's' :: 'e' :: rest => some (Json.bool false, rest)
    | '"' :: rest =>
      match takeStringChars rest with
      | some (cs, r) => some (Json.str (String.mk cs), r)
      | none => none
    | '[' :: rest =>
      (match skipWs rest with
       | ']' :: r => some (Json.arr [], r)
       | s1 => parseArrItems fuel s1 [])
    | '\x7b' :: rest =>
      (match skipWs rest with
       | '\x7d' :: r => some (Json.obj [], r)
       | s1 => parseObjItems fuel s1 [])
    | s1 =>
      match parseNum s1 with
      | some (n, r) => some (Json.num n, r)
      | none => none

def parseArrItems : Nat → List Char → List Json → Option (Json × List Char)
  | 0, _, _ => none
  | Nat.succ fuel, s, acc =>
    match parseVal fuel s with
    | none => none
    | some (j, r) =>
      match skipWs r with
      | ',' :: r2 => parseArrItems fuel r2 (acc ++ [j])
      | ']' :: r2 => some (Json.arr (acc ++ [j]), r2)
      | _ => none

def parseObjItems : Nat → List Char → List (String × Json) → Option (Json × List Char)
  | 0, _, _ => none
  | Nat.succ fuel, s, acc =>
    match skipWs s with
    | '"' :: rest =>
      (match takeStringChars rest with
       | none => none
       | some (cs, r) =>
         match skipWs r with
         | ':' :: r2 =>
           (match parseVal fuel r2 with
            | none => none
            | some (j, r3) =>
              match skipWs r3 with
              | ',' :: r4 => parseObjItems fuel r4 (objInsert (String.mk cs) j acc)
              | '\x7d' :: r4 => some (Json.obj (objInsert (String.mk cs) j acc), r4)
              | _ => none)
         | _ => none)
    | _ => none

end

/-- Parse a complete JSONB document: the value plus trailing whitespace must
consume the whole input, as the Postgres `JSONB` cast demands. -/
def jsonbParse (s : List Char) : Option Json :=
  match parseVal (2 * s.length + 2) s with
  | some (j, rest) => if skipWs rest = [] then some j else none
  | none => none

/-- Comma-space joining of rendered members, as the jsonb output format. -/
def joinCommaSpace : List (List Char) → List Char
  | [] => []
  | [x] => x
  | x :: y :: rest => x ++ ',' :: ' ' :: joinCommaSpace (y :: rest)

/-- The jsonb text output: canonical layout with sorted, deduplicated keys.
The fuel argument only drives structural recursion; callers supply a bound
from the input length, which dominates the nesting depth of any parsed
value. -/
def renderJsonF : Nat → Json → List Char
  | 0, _ => []
  | Nat.succ _, Json.null => ['n', 'u', 'l', 'l']
  | Nat.succ _, Json.bool true => ['t', 'r', 'u', 'e']
  | Nat.succ _, Json.bool false => ['f', 'a', 'l', 's', 'e']
  | Nat.succ _, Json.num n => (toString n).toList
  | Nat.succ _, Json.str s => '"' :: s.toList ++ ['"']
  | Nat.succ fuel, Json.arr xs =>
    '[' :: joinCommaSpace (xs.map (renderJsonF fuel)) ++ [']']
  | Nat.succ fuel, Json.obj kvs =>
    '\x7b' :: joinCommaSpace (kvs.map
        (fun kv => '"' :: kv.1.toList ++ '"' :: ':' :: ' ' :: renderJsonF fuel kv.2))
      ++ ['\x7d']

/-- The `JSONB` cast-and-store semantics in one step: parse the document and
re-render it in the canonical jsonb text form (the form in which the column
is scanned back).  `none` is an invalid document, i.e. a storage error. -/
def jsonbNormalize (b : List Char) : Option (List Char) :=
  match jsonbParse b with
  | some j => some (renderJsonF (2 * b.length + 2) j)
  | none => none

/-! ### The message table

`migrations/0001_init.sql` and the Go row type `queue.Message`
(`internal/queue/message.go`). -/

/-- One row of the `messages` table.  `body` holds the stored `JSONB`
document, represented by its canonical jsonb text rendering (the bytes the
column yields when scanned). -/
structure Message where
  id : Nat
  queue : String
  body : List Char
  enqueuedAt : Int
  notBefore : Int
  leaseUntil : Option Int
  deliveryCount : Int
  maxRetries : Int
  dlq : Option String
  traceId : Option String
deriving DecidableEq

/-- The database: the `messages` table plus the `BIGSERIAL` id sequence. -/
structure DB where
  nextId : Nat
  rows : List Message
deriving DecidableEq

def emptyDB : DB := { nextId := 0, rows := [] }

/-! ### Store operations (`internal/queue/store/postgres/postgres.go`) -/

/-- `sqlEnqueue` plus the surrounding `PostgresStore.Enqueue`.  The Go code
substitutes `MaxRetries = 5` when the caller passed exactly `0`; the insert
uses the schema defaults `enqueued_at = now()`, `not_before = now() + delay`,
`lease_until NULL`, `delivery_count 0`.  A body the `JSONB` cast rejects or a
negative `max_retries` (CHECK `chk_max_retries_nonneg`) is a storage error. -/
def storeEnqueue (db : DB) (q : String) (body : List Char) (delay : Int)
    (maxRetries0 : Int) (dlq traceId : Option String) (now : Int) :
    Option (DB × Nat) :=
  match jsonbNormalize body with
  | none => none
  | some nb =>
    if (if maxRetries0 = 0 then (5 : Int) else maxRetries0) < 0 then none
    else
      some ({ nextId := db.nextId + 1,
              rows := db.rows ++
                [{ id := db.nextId, queue := q, body := nb, enqueuedAt := now,
                   notBefore := now + delay, leaseUntil := none,
                   deliveryCount := 0,
                   maxRetries := if maxRetries0 = 0 then 5 else maxRetries0,
                   dlq := dlq, traceId := traceId }] },
            db.nextId)

/-- The availability predicate of `sqlClaim`: same queue, no lease, and
`not_before <= now()`. -/
def availableIn (q : String) (now : Int) (m : Message) : Bool :=
  m.queue == q && m.leaseUntil.isNone && decide (m.notBefore ≤ now)

/-- The `ORDER BY id` of the `picked` CTE. -/
def idLe (a b : Message) : Prop := a.id ≤ b.id

instance : DecidableRel idLe := fun a b => Nat.decLe a.id b.id

instance : IsTotal Message idLe := ⟨fun a b => Nat.le_total a.id b.id⟩

instance : IsTrans Message idLe := ⟨fun _ _ _ h h' => Nat.le_trans h h'⟩

def sortById (rows : List Message) : List Message := List.insertionSort idLe rows

/-- The `picked` CTE of `sqlClaim`: available rows of the queue in id order,
skipping rows locked by a concurrent transaction (`FOR UPDATE SKIP LOCKED`),
truncated by `LIMIT`.  The lock set held by concurrent claims is explicit. -/
def sqlClaimPick (db : DB) (q : String) (now : Int) (locked : List Nat)
    (lim : Nat) : List Nat :=
  (((sortById db.rows).filter
      (fun m => availableIn q now m && !(decide (m.id ∈ locked)))).map
    (fun m => m.id)).take lim

/-- The `SET` clause of the `updated` CTE: lease for `visibility` from `now()`
and advance `delivery_count`. -/
def claimLease (now visibility : Int) (m : Message) : Message :=
  { m with leaseUntil := some (now + visibility),
           deliveryCount := m.deliveryCount + 1 }

/-- `PostgresStore.Claim` running `sqlClaim` in one transaction: pick, update
the picked rows, return them.  Only the inner `picked` CTE carries
`ORDER BY id`; the outer `SELECT * FROM updated` has no ORDER BY, so the SQL
leaves the emit order of the result rows unspecified.  This function fixes
the pick order as one canonical representative; `claimExec` below closes the
result under every emit order the SQL permits, and order-sensitive
properties are settled against `claimExec`.  Postgres rejects a negative
`LIMIT`, which surfaces as a storage error. -/
def storeClaim (db : DB) (q : String) (limit visibility now : Int) :
    Option (DB × List Message) :=
  if limit < 0 then none
  else
    let picked := sqlClaimPick db q now [] limit.toNat
    some ({ db with
              rows := db.rows.map
                (fun m => if m.id ∈ picked then claimLease now visibility m else m) },
          ((sortById db.rows).filter (fun m => decide (m.id ∈ picked))).map
            (claimLease now visibility))

/-- The executions `sqlClaim` permits: the table update and the selected
row set are deterministic, but because the outer `SELECT * FROM updated`
has no ORDER BY, the engine may emit the updated rows in any order
(`UPDATE ... RETURNING` row order is plan-dependent and unspecified). -/
def claimExec (db : DB) (q : String) (limit visibility now : Int)
    (db' : DB) (res : List Message) : Prop :=
  ∃ res0, storeClaim db q limit visibility now = some (db', res0) ∧
    List.Perm res res0

/-- `PostgresStore.Ack` running `sqlAck`: delete the row, report
`RowsAffected() > 0`.  No error path besides storage failure. -/
def storeAck (db : DB) (id : Nat) : DB × Bool :=
  let remaining := db.rows.filter (fun m => !(decide (m.id = id)))
  ({ db with rows := remaining }, decide (remaining.length < db.rows.length))

/-- Selection predicate of `sqlSweeperRequeue`: an expired lease and either
attempts left or no DLQ configured. -/
def requeueEligible (now : Int) (m : Message) : Bool :=
  match m.leaseUntil with
  | some t => decide (t < now) && (decide (m.deliveryCount < m.maxRetries) || m.dlq.isNone)
  | none => false

/-- `sqlSweeperRequeue`: clear the lease of every eligible row; the result of
`Exec` reports the rows affected. -/
def sqlSweeperRequeueRun (db : DB) (now : Int) : DB × Nat :=
  ({ db with
       rows := db.rows.map
         (fun m => if requeueEligible now m then { m with leaseUntil := none } else m) },
   (db.rows.filter (requeueEligible now)).length)

/-- Selection predicate of `sqlSweeperDLQ`: an expired lease, attempts
exhausted, and a DLQ configured. -/
def dlqEligible (now : Int) (m : Message) : Bool :=
  match m.leaseUntil, m.dlq with
  | some t, some _ => decide (t < now) && decide (m.maxRetries ≤ m.deliveryCount)
  | _, _ => false

/-- The row the `INSERT ... SELECT` of `sqlSweeperDLQ` creates: `queue` is the
old `dlq`, `body`, `enqueued_at`, `max_retries`, `trace_id` are copied,
`delivery_count` is 0; the omitted columns take their schema defaults:
`not_before = now()`, `lease_until NULL`, `dlq NULL`. -/
def dlqMove (now : Int) (newId : Nat) (m : Message) : Message :=
  { id := newId,
    queue := match m.dlq with | some d => d | none => m.queue,
    body := m.body, enqueuedAt := m.enqueuedAt, notBefore := now,
    leaseUntil := none, deliveryCount := 0, maxRetries := m.maxRetries,
    dlq := none, traceId := m.traceId }

/-- `sqlSweeperDLQ`: insert the replacement rows (fresh serial ids), delete the
originals; the statement's row count is that of the top-level `DELETE`. -/
def sqlSweeperDLQRun (db : DB) (now : Int) : DB × Nat :=
  let moved := db.rows.filter (dlqEligible now)
  ({ nextId := db.nextId + moved.length,
     rows := db.rows.filter (fun m => !(dlqEligible now m))
       ++ moved.enum.map (fun p => dlqMove now (db.nextId + p.1) p.2) },
   moved.length)

/-- `PostgresStore.Sweeper`: the requeue pass, then the DLQ pass; returns the
total rows processed. -/
def storeSweeper (db : DB) (now : Int) : DB × Nat :=
  let r1 := sqlSweeperRequeueRun db now
  let r2 := sqlSweeperDLQRun r1.1 now
  (r2.1, r1.2 + r2.2)

/-! ### HTTP edge handlers (`internal/api/http.go`)

Each handler is modelled on decoded request fields; a handler returns the new
database, the HTTP status code, and its payload.  A `none` store result is the
storage-error path (HTTP 500). -/

/-- `handleEnqueue`: path-param and body validation, the `MaxRetries <= 0`
default of 5, then `store.Enqueue` with `delay` taken as milliseconds. -/
def handleEnqueue (db : DB) (qname : String) (body : List Char)
    (delayMs maxRetries : Int) (dlq traceId : Option String) (now : Int) :
    DB × Nat × Option Nat :=
  if qname = "" then (db, 400, none)
  else if body = [] ∨ body = "null".toList then (db, 400, none)
  else
    match storeEnqueue db qname body delayMs
        (if maxRetries ≤ 0 then 5 else maxRetries) dlq traceId now with
    | none => (db, 500, none)
    | some (db', id) => (db', 201, some id)

/-- Body bytes of one element of the receive response: the edge passes on the
bytes it scanned from the store, i.e. the jsonb text rendering. -/
def receivedBody (m : Message) : List Char := m.body

/-- `handleReceive`: clamp `max` outside `[1, 32]` to 1, default a
non-positive visibility to 30 s, then `store.Claim`; the payload keeps the
claimed messages and their serialized bodies. -/
def handleReceive (db : DB) (qname : String) (maxReq visibilityMs now : Int) :
    DB × Nat × Option (List Message) :=
  if qname = "" then (db, 400, none)
  else
    let lim : Int := if maxReq ≤ 0 ∨ 32 < maxReq then 1 else maxReq
    let vis : Int := if visibilityMs ≤ 0 then 30000 else visibilityMs
    match storeClaim db qname lim vis now with
    | none => (db, 500, none)
    | some (db', out) => (db', 200, some out)

/-- `handleAck`: `store.Ack`, mapping `false` to 404 and `true` to 200. -/
def handleAck (db : DB) (id : Nat) : DB × Nat :=
  let r := storeAck db id
  if r.2 then (r.1, 200) else (r.1, 404)

/-! ### The sweeper loop (`internal/sweeper`, `Sweeper.Start`) -/

/-- One `ticker.C` arm of the `Sweeper.Start` select loop, applied to the
result of `store.Sweeper`.  State threaded through: the value of the
`sqs_sweeper_errors_total` counter (`metrics.SweeperErrors`) and the log.
The returned flag is whether the loop keeps running (reaches the next tick).
On error the code logs and continues; it touches no metrics counter. -/
def sweeperTick (errorsTotal : Nat) (log : List String)
    (result : Except String Nat) : Nat × List String × Bool :=
  match result with
  | Except.error e => (errorsTotal, log ++ ["Sweeper error: " ++ e], true)
  | Except.ok c =>
    (errorsTotal,
     if 0 < c then log ++ ["Sweeper processed " ++ toString c ++ " messages"] else log,
     true)

/-! ### Operation traces and well-formedness -/

/-- A store operation, as fired by the HTTP edge or the sweeper. -/
inductive Op where
  | enq (q : String) (body : List Char) (delayMs maxRetries : Int)
      (dlq traceId : Option String) (now : Int) : Op
  | claimOp (q : String) (limit visibility now : Int) : Op
  | ackOp (id : Nat) : Op
  | sweepOp (now : Int) : Op

def Op.isSweep : Op → Bool
  | Op.sweepOp _ => true
  | _ => false

/-- The state transition of one operation (a failed store call leaves the
table unchanged). -/
def applyOp (db : DB) : Op → DB
  | Op.enq q b d mr dl tr now =>
    match storeEnqueue db q b d mr dl tr now with
    | some r => r.1
    | none => db
  | Op.claimOp q l v now =>
    match storeClaim db q l v now with
    | some r => r.1
    | none => db
  | Op.ackOp id => (storeAck db id).1
  | Op.sweepOp now => (storeSweeper db now).1

def applyOps (db : DB) (ops : List Op) : DB := ops.foldl applyOp db

/-- Well-formedness the `BIGSERIAL PRIMARY KEY` maintains: ids are distinct
and below the sequence head. -/
def WF (db : DB) : Prop :=
  (db.rows.map (fun m => m.id)).Nodup ∧ ∀ m ∈ db.rows, m.id < db.nextId

/-! ### Helper lemmas -/

lemma sortById_perm (l : List Message) : List.Perm (sortById l) l :=
  List.perm_insertionSort idLe l

lemma mem_sortById {m : Message} {l : List Message} : m ∈ sortById l ↔ m ∈ l :=
  (sortById_perm l).mem_iff

lemma sortById_pairwise (l : List Message) : List.Pairwise idLe (sortById l) :=
  List.sorted_insertionSort idLe l

lemma idsNodup_sortById {l : List Message}
    (h : (l.map (fun m => m.id)).Nodup) :
    ((sortById l).map (fun m => m.id)).Nodup :=
  (((sortById_perm l).map (fun m => m.id)).nodup_iff).mpr h

/-- Rows with equal ids are equal under the primary-key invariant. -/
lemma eq_of_id_eq {db : DB} (hwf : WF db) {m m' : Message}
    (hm : m ∈ db.rows) (hm' : m' ∈ db.rows) (h : m.id = m'.id) : m = m' :=
  List.inj_on_of_nodup_map hwf.1 hm hm' h

/-- Every id a claim pick returns belongs to an available row of the queue and
is outside the concurrently locked set. -/
lemma of_mem_pick {db : DB} {q : String} {now : Int} {locked : List Nat}
    {lim : Nat} {i : Nat} (h : i ∈ sqlClaimPick db q now locked lim) :
    ∃ m ∈ db.rows, m.id = i ∧ availableIn q now m = true ∧ i ∉ locked := by
  unfold sqlClaimPick at h
  have h' := List.mem_of_mem_take h
  rcases List.mem_map.mp h' with ⟨m, hmem, hid⟩
  rcases List.mem_filter.mp hmem with ⟨hsorted, hpred⟩
  simp only [Bool.and_eq_true] at hpred
  rcases hpred with ⟨havail, hnl⟩
  refine ⟨m, mem_sortById.mp hsorted, hid, havail, ?_⟩
  intro hin
  subst hid
  simp [hin] at hnl

lemma pick_length_le {db : DB} {q : String} {now : Int} {locked : List Nat}
    {lim : Nat} : (sqlClaimPick db q now locked lim).length ≤ lim := by
  unfold sqlClaimPick
  exact (List.length_take ..).trans_le (Nat.min_le_left _ _)

/-- Canonical decomposition of a successful claim. -/
lemma storeClaim_some {db db' : DB} {q : String} {lim vis now : Int}
    {res : List Message} (h : storeClaim db q lim vis now = some (db', res)) :
    ¬ lim < 0 ∧
      db' = { db with
                rows := db.rows.map
                  (fun m => if m.id ∈ sqlClaimPick db q now [] lim.toNat then
                      claimLease now vis m
                    else m) } ∧
      res = ((sortById db.rows).filter
          (fun m => decide (m.id ∈ sqlClaimPick db q now [] lim.toNat))).map
        (claimLease now vis) := by
  unfold storeClaim at h
  split at h
  · exact absurd h (by simp)
  · rw [Option.some_inj] at h
    rw [Prod.ext_iff] at h
    exact ⟨by assumption, h.1.symm, h.2.symm⟩

@[simp] lemma claimLease_id (now vis : Int) (m : Message) :
    (claimLease now vis m).id = m.id := rfl

/-- Every message a claim returns is an updated copy of an available row of
the requested queue. -/
lemma mem_claim_res {db db' : DB} {q : String} {lim vis now : Int}
    {res : List Message} (hwf : WF db)
    (h : storeClaim db q lim vis now = some (db', res)) {m : Message}
    (hm : m ∈ res) :
    ∃ m0 ∈ db.rows, m0.id = m.id ∧ availableIn q now m0 = true ∧
      m = claimLease now vis m0 := by
  rcases storeClaim_some h with ⟨-, -, hres⟩
  subst hres
  rcases List.mem_map.mp hm with ⟨m0, hm0, hlease⟩
  rcases List.mem_filter.mp hm0 with ⟨hsorted, hpicked⟩
  have hrows : m0 ∈ db.rows := mem_sortById.mp hsorted
  have hpicked' : m0.id ∈ sqlClaimPick db q now [] lim.toNat :=
    of_decide_eq_true hpicked
  rcases of_mem_pick hpicked' with ⟨m1, hm1, hid, havail, -⟩
  have : m1 = m0 := eq_of_id_eq hwf hm1 hrows hid
  subst this
  refine ⟨m1, hm1, ?_, havail, hlease.symm⟩
  rw [← hlease]
  rfl

/-- Ids of the rows a claim selects, before the lease update, are distinct. -/
lemma claim_filter_ids_nodup {db : DB} (hwf : WF db) (p : Message → Bool) :
    (((sortById db.rows).filter p).map (fun m => m.id)).Nodup := by
  have hsub : List.Sublist (((sortById db.rows).filter p).map (fun m => m.id))
      ((sortById db.rows).map (fun m => m.id)) :=
    (List.filter_sublist (sortById db.rows)).map (fun m => m.id)
  exact hsub.nodup (idsNodup_sortById hwf.1)

/-- A claim returns at most `limit` messages. -/
lemma claim_res_length {db db' : DB} {q : String} {lim vis now : Int}
    {res : List Message} (hwf : WF db)
    (h : storeClaim db q lim vis now = some (db', res)) :
    res.length ≤ lim.toNat := by
  rcases storeClaim_some h with ⟨-, -, hres⟩
  subst hres
  rw [List.length_map]
  set p := fun m : Message => decide (m.id ∈ sqlClaimPick db q now [] lim.toNat)
    with hp
  have hnd : (((sortById db.rows).filter p).map (fun m => m.id)).Nodup :=
    claim_filter_ids_nodup hwf p
  have hsub : ((sortById db.rows).filter p).map (fun m => m.id) ⊆
      sqlClaimPick db q now [] lim.toNat := by
    intro i hi
    rcases List.mem_map.mp hi with ⟨m, hmem, hid⟩
    have := (List.mem_filter.mp hmem).2
    rw [hp] at this
    exact hid ▸ of_decide_eq_true this
  have hle := (hnd.subperm hsub).length_le
  rw [List.length_map] at hle
  exact hle.trans pick_length_le

/-- Ids within one claim result are strictly increasing in list order. -/
lemma claim_res_strict_mono {db db' : DB} {q : String} {lim vis now : Int}
    {res : List Message} (hwf : WF db)
    (h : storeClaim db q lim vis now = some (db', res)) :
    List.Pairwise (fun a b => a < b) (res.map (fun m => m.id)) := by
  rcases storeClaim_some h with ⟨-, -, hres⟩
  subst hres
  set p := fun m : Message => decide (m.id ∈ sqlClaimPick db q now [] lim.toNat)
  have hle : List.Pairwise idLe ((sortById db.rows).filter p) :=
    (sortById_pairwise db.rows).sublist (List.filter_sublist _)
  have hle' : List.Pairwise (fun a b : Nat => a ≤ b)
      (((sortById db.rows).filter p).map (fun m => m.id)) :=
    List.pairwise_map.mpr hle
  have hne : List.Pairwise (fun a b : Nat => a ≠ b)
      (((sortById db.rows).filter p).map (fun m => m.id)) :=
    claim_filter_ids_nodup hwf p
  rw [List.map_map]
  have hcomp : ((fun m : Message => m.id) ∘ claimLease now vis) =
      fun m : Message => m.id := rfl
  rw [hcomp]
  exact (hle'.and hne).imp (fun h => lt_of_le_of_ne h.1 h.2)

lemma availableIn_iff {q : String} {now : Int} {m : Message} :
    availableIn q now m = true ↔
      m.queue = q ∧ m.leaseUntil = none ∧ m.notBefore ≤ now := by
  unfold availableIn
  simp [Bool.and_eq_true, Option.isNone_iff_eq_none, and_assoc]

/-! ### Claim theorems -/

/-- C2.  A Claim returns at most `limit` rows; every returned row is an
updated copy of a message of the requested queue that was available
(`lease_until` absent and `not_before ≤ now`), with `delivery_count`
advanced by exactly one and `lease_until = now + visibility`; a row with
`not_before > now` or a set `lease_until` is never returned. -/
theorem claim_selects_available_advances_and_leases (db db' : DB) (q : String)
    (lim vis now : Int) (res : List Message) (hwf : WF db)
    (h : storeClaim db q lim vis now = some (db', res)) :
    res.length ≤ lim.toNat ∧
    ∀ m ∈ res, ∃ m0 ∈ db.rows,
      m0.queue = q ∧ m0.leaseUntil = none ∧ m0.notBefore ≤ now ∧
      m.id = m0.id ∧ m.queue = m0.queue ∧ m.body = m0.body ∧
      m.deliveryCount = m0.deliveryCount + 1 ∧
      m.leaseUntil = some (now + vis) := by
  refine ⟨claim_res_length hwf h, ?_⟩
  intro m hm
  rcases mem_claim_res hwf h hm with ⟨m0, hmem, hid, havail, heq⟩
  rcases availableIn_iff.mp havail with ⟨hq, hlease, hnb⟩
  subst heq
  exact ⟨m0, hmem, hq, hlease, hnb, rfl, rfl, rfl, rfl, rfl⟩

/-- A concrete available row used by the witnesses. -/
def wMsg : Message :=
  { id := 0, queue := "q", body := ['1'], enqueuedAt := 0, notBefore := 0,
    leaseUntil := none, deliveryCount := 0, maxRetries := 5, dlq := none,
    traceId := none }

def wDB : DB := { nextId := 1, rows := [wMsg] }

lemma wDB_wf : WF wDB := ⟨by decide, by decide⟩

def wClaimedRow : Message := { wMsg with leaseUntil := some 30000, deliveryCount := 1 }

theorem claim_selects_available_advances_and_leases_witness :
    WF wDB ∧
    storeClaim wDB "q" 1 30000 0 = some ({ wDB with rows := [wClaimedRow] }, [wClaimedRow]) ∧
    ([wClaimedRow].length ≤ (1 : Int).toNat ∧
     ∀ m ∈ [wClaimedRow], ∃ m0 ∈ wDB.rows,
       m0.queue = "q" ∧ m0.leaseUntil = none ∧ m0.notBefore ≤ 0 ∧
       m.id = m0.id ∧ m.queue = m0.queue ∧ m.body = m0.body ∧
       m.deliveryCount = m0.deliveryCount + 1 ∧
       m.leaseUntil = some (0 + 30000)) :=
  ⟨wDB_wf, rfl,
   claim_selects_available_advances_and_leases wDB _ "q" 1 30000 0 _ wDB_wf rfl⟩

/-! ### Ack theorems -/

/-- C6.  `Ack(id)` reports `true` exactly when a row with that id existed and
was removed; a second Ack of the same id reports `false` (with no error
path besides storage failure, which the model has none of); over HTTP,
acking an id that matches no row yields 404 and leaves the table
unchanged. -/
theorem ack_true_iff_removed_and_idempotent (db : DB) (id : Nat) :
    ((storeAck db id).2 = true ↔ ∃ m ∈ db.rows, m.id = id) ∧
    (storeAck (storeAck db id).1 id).2 = false ∧
    ((∀ m ∈ db.rows, m.id ≠ id) → handleAck db id = (db, 404)) := by
  have hfilter : ∀ rows : List Message, (∀ m ∈ rows, m.id ≠ id) →
      rows.filter (fun m => !(decide (m.id = id))) = rows := by
    intro rows hno
    apply List.filter_eq_self.mpr
    intro m hm
    simp [hno m hm]
  refine ⟨?_, ?_, ?_⟩
  · unfold storeAck
    simp only [decide_eq_true_eq]
    rw [List.length_filter_lt_length_iff_exists]
    simp
  · unfold storeAck
    simp only [decide_eq_true_eq]
    have hno : ∀ m ∈ db.rows.filter (fun m => !(decide (m.id = id))), m.id ≠ id := by
      intro m hm
      have := (List.mem_filter.mp hm).2
      simpa using this
    rw [hfilter _ hno]
    simp
  · intro hno
    unfold handleAck storeAck
    rw [hfilter db.rows hno]
    simp

theorem ack_true_iff_removed_and_idempotent_witness :
    (∀ m ∈ wDB.rows, m.id ≠ 7) ∧ handleAck wDB 7 = (wDB, 404) :=
  ⟨by decide, (ack_true_iff_removed_and_idempotent wDB 7).2.2 (by decide)⟩

/-! ### Sweeper theorems -/

lemma exists_enum_pair {α : Type} {l : List α} {a : α} (h : a ∈ l) :
    ∃ i, (i, a) ∈ l.enum := by
  rcases List.mem_iff_get.mp h with ⟨i, hi⟩
  refine ⟨i, ?_⟩
  rw [List.mem_enum_iff_getElem?, ← hi]
  simp

/-- The requeue pass touches only the lease field, so row ids are stable. -/
lemma requeue_ids_stable (db : DB) (now : Int) :
    (sqlSweeperRequeueRun db now).1.rows.map (fun m => m.id) =
      db.rows.map (fun m => m.id) := by
  unfold sqlSweeperRequeueRun
  rw [List.map_map]
  apply List.map_congr_left
  intro m _
  by_cases hr : requeueEligible now m
  · simp [hr]
  · simp [hr]

lemma requeue_nextId (db : DB) (now : Int) :
    (sqlSweeperRequeueRun db now).1.nextId = db.nextId := rfl

lemma requeue_wf {db : DB} (hwf : WF db) (now : Int) :
    WF (sqlSweeperRequeueRun db now).1 := by
  constructor
  · rw [requeue_ids_stable]
    exact hwf.1
  · intro m hm
    unfold sqlSweeperRequeueRun at hm ⊢
    rcases List.mem_map.mp hm with ⟨m0, hm0, heq⟩
    have := hwf.2 m0 hm0
    subst heq
    by_cases hr : requeueEligible now m0
    · simpa [hr] using this
    · simpa [hr] using this

/-- C4.  One Sweep clears the lease of every in-flight row whose lease has
expired and which still has attempts left or has no DLQ configured; the row
(same id, all other columns unchanged) is available again as soon as its
`not_before` has passed.  In particular an exhausted row without a DLQ is
reclaimed rather than dropped. -/
theorem sweep_reclaims_expired_under_cap_or_no_dlq (db : DB) (now t : Int)
    (m : Message) (hm : m ∈ db.rows) (hlease : m.leaseUntil = some t)
    (hexp : t < now) (hpol : m.deliveryCount < m.maxRetries ∨ m.dlq = none) :
    { m with leaseUntil := none } ∈ (storeSweeper db now).1.rows ∧
    (m.notBefore ≤ now →
      availableIn m.queue now { m with leaseUntil := none } = true) := by
  have helig : requeueEligible now m = true := by
    unfold requeueEligible
    rw [hlease]
    rcases hpol with hlt | hnone
    · simp [hexp, hlt]
    · simp [hexp, hnone]
  have h1 : { m with leaseUntil := none } ∈ (sqlSweeperRequeueRun db now).1.rows := by
    unfold sqlSweeperRequeueRun
    have := List.mem_map_of_mem
      (fun m => if requeueEligible now m then { m with leaseUntil := none } else m) hm
    simpa [helig] using this
  have h2 : dlqEligible now { m with leaseUntil := none } = false := rfl
  constructor
  · unfold storeSweeper sqlSweeperDLQRun
    apply List.mem_append_left
    rw [List.mem_filter]
    exact ⟨h1, by simp [h2]⟩
  · intro hnb
    rw [availableIn_iff]
    exact ⟨rfl, rfl, hnb⟩

def wClaimedDB : DB := { nextId := 1, rows := [wClaimedRow] }

theorem sweep_reclaims_expired_under_cap_or_no_dlq_witness :
    wClaimedRow ∈ wClaimedDB.rows ∧ wClaimedRow.leaseUntil = some 30000 ∧
    (30000 : Int) < 40000 ∧
    (wClaimedRow.deliveryCount < wClaimedRow.maxRetries ∨ wClaimedRow.dlq = none) ∧
    { wClaimedRow with leaseUntil := none } ∈ (storeSweeper wClaimedDB 40000).1.rows :=
  ⟨List.Mem.head _, rfl, by decide, Or.inr rfl,
   (sweep_reclaims_expired_under_cap_or_no_dlq wClaimedDB 40000 30000 wClaimedRow
     (List.Mem.head _) rfl (by decide) (Or.inr rfl)).1⟩

/-- Unfolding of the table a full sweep produces. -/
lemma sweeper_rows (db : DB) (now : Int) :
    (storeSweeper db now).1.rows =
      (sqlSweeperRequeueRun db now).1.rows.filter (fun m => !(dlqEligible now m)) ++
      ((sqlSweeperRequeueRun db now).1.rows.filter (dlqEligible now)).enum.map
        (fun p => dlqMove now ((sqlSweeperRequeueRun db now).1.nextId + p.1) p.2) := rfl

/-- C5.  One Sweep moves every in-flight row with an expired lease, exhausted
attempts and a configured DLQ: the original id disappears from the table, and
a replacement row exists in the DLQ-named queue with `body`, `enqueued_at`,
`max_retries`, `trace_id` copied, `delivery_count = 0`, no lease and no
further DLQ. -/
theorem sweep_moves_exhausted_to_dlq (db : DB) (now t : Int) (d : String)
    (m : Message) (hwf : WF db) (hm : m ∈ db.rows)
    (hlease : m.leaseUntil = some t) (hexp : t < now)
    (hcap : m.maxRetries ≤ m.deliveryCount) (hdlq : m.dlq = some d) :
    (∀ m' ∈ (storeSweeper db now).1.rows, m'.id ≠ m.id) ∧
    ∃ m' ∈ (storeSweeper db now).1.rows,
      m'.queue = d ∧ m'.body = m.body ∧ m'.enqueuedAt = m.enqueuedAt ∧
      m'.maxRetries = m.maxRetries ∧ m'.traceId = m.traceId ∧
      m'.deliveryCount = 0 ∧ m'.leaseUntil = none ∧ m'.dlq = none := by
  have hnotreq : requeueEligible now m = false := by
    unfold requeueEligible
    rw [hlease, hdlq]
    simp [not_lt_of_le hcap]
  have hdlqel : dlqEligible now m = true := by
    unfold dlqEligible
    rw [hlease, hdlq]
    simp [hexp, hcap]
  set db1 := (sqlSweeperRequeueRun db now).1 with hdb1
  have hm1 : m ∈ db1.rows := by
    rw [hdb1]
    unfold sqlSweeperRequeueRun
    have := List.mem_map_of_mem
      (fun m => if requeueEligible now m then { m with leaseUntil := none } else m) hm
    simpa [hnotreq] using this
  have hwf1 : WF db1 := requeue_wf hwf now
  have hmoved : m ∈ db1.rows.filter (dlqEligible now) :=
    List.mem_filter.mpr ⟨hm1, hdlqel⟩
  constructor
  · intro m' hm' heq
    rw [sweeper_rows, ← hdb1] at hm'
    rcases List.mem_append.mp hm' with hsurv | hins
    · rcases List.mem_filter.mp hsurv with ⟨hmem, hnot⟩
      have : m' = m := eq_of_id_eq hwf1 hmem hm1 heq
      subst this
      rw [hdlqel] at hnot
      simp at hnot
    · rcases List.mem_map.mp hins with ⟨p, -, hpe⟩
      have hid : m'.id = db1.nextId + p.1 := by rw [← hpe]; rfl
      have hlt : m.id < db.nextId := hwf.2 m hm
      have : db1.nextId = db.nextId := requeue_nextId db now
      omega
  · rcases exists_enum_pair hmoved with ⟨i, hi⟩
    refine ⟨dlqMove now (db1.nextId + i) m, ?_, ?_, rfl, rfl, rfl, rfl, rfl, rfl, rfl⟩
    · rw [sweeper_rows, ← hdb1]
      apply List.mem_append_right
      exact List.mem_map.mpr ⟨(i, m), hi, rfl⟩
    · unfold dlqMove
      rw [hdlq]

theorem sweep_moves_exhausted_to_dlq_witness :
    ∃ db : DB, ∃ m ∈ db.rows,
      WF db ∧ m.leaseUntil = some 1100 ∧ (1100 : Int) < 2000 ∧
      m.maxRetries ≤ m.deliveryCount ∧ m.dlq = some "d" ∧
      ((∀ m' ∈ (storeSweeper db 2000).1.rows, m'.id ≠ m.id) ∧
       ∃ m' ∈ (storeSweeper db 2000).1.rows,
         m'.queue = "d" ∧ m'.body = m.body ∧ m'.enqueuedAt = m.enqueuedAt ∧
         m'.maxRetries = m.maxRetries ∧ m'.traceId = m.traceId ∧
         m'.deliveryCount = 0 ∧ m'.leaseUntil = none ∧ m'.dlq = none) :=
  ⟨{ nextId := 1,
     rows := [{ id := 0, queue := "q", body := ['2'], enqueuedAt := 100,
                notBefore := 100, leaseUntil := some 1100, deliveryCount := 1,
                maxRetries := 1, dlq := some "d", traceId := none }] },
   _, List.Mem.head _, ⟨by decide, by decide⟩, rfl, by decide, by decide, rfl,
   sweep_moves_exhausted_to_dlq _ 2000 1100 "d" _ ⟨by decide, by decide⟩
     (List.Mem.head _) rfl (by decide) (by decide) rfl⟩

/-! ### HTTP enqueue theorems -/

/-- Canonical decomposition of a successful store enqueue. -/
lemma storeEnqueue_some {db : DB} {q : String} {body : List Char}
    {delay mr0 : Int} {dlq traceId : Option String} {now : Int} {db' : DB}
    {nid : Nat}
    (h : storeEnqueue db q body delay mr0 dlq traceId now = some (db', nid)) :
    ∃ nb, jsonbNormalize body = some nb ∧
      ¬ (if mr0 = 0 then (5 : Int) else mr0) < 0 ∧ nid = db.nextId ∧
      db' = { nextId := db.nextId + 1,
              rows := db.rows ++
                [{ id := db.nextId, queue := q, body := nb, enqueuedAt := now,
                   notBefore := now + delay, leaseUntil := none,
                   deliveryCount := 0,
                   maxRetries := if mr0 = 0 then 5 else mr0, dlq := dlq,
                   traceId := traceId }] } := by
  unfold storeEnqueue at h
  cases hp : jsonbNormalize body with
  | none => rw [hp] at h; cases h
  | some nb =>
    simp only [hp] at h
    split at h
    next h0 =>
      rw [if_neg (by norm_num : ¬ (5 : Int) < 0), Option.some_inj,
        Prod.ext_iff] at h
      exact ⟨nb, rfl, by rw [if_pos h0]; norm_num, h.2.symm,
        by rw [if_pos h0]; exact h.1.symm⟩
    next h0 =>
      split at h
      next h1 => cases h
      next h1 =>
        rw [Option.some_inj, Prod.ext_iff] at h
        refine ⟨nb, rfl, ?_, h.2.symm, ?_⟩
        · rw [if_neg h0]; exact h1
        · rw [if_neg h0]; exact h.1.symm

/-- A handled enqueue either leaves the table unchanged (validation or
storage failure) or commits exactly the successful store enqueue. -/
lemma handleEnqueue_db (db : DB) (q : String) (body : List Char)
    (delayMs mr : Int) (dlq traceId : Option String) (now : Int) :
    (handleEnqueue db q body delayMs mr dlq traceId now).1 = db ∨
    ∃ r, storeEnqueue db q body delayMs (if mr ≤ 0 then 5 else mr)
        dlq traceId now = some r ∧
      (handleEnqueue db q body delayMs mr dlq traceId now).1 = r.1 := by
  unfold handleEnqueue
  split
  · exact Or.inl rfl
  · split
    · exact Or.inl rfl
    · cases he : storeEnqueue db q body delayMs (if mr ≤ 0 then 5 else mr)
        dlq traceId now with
      | none => exact Or.inl rfl
      | some r => exact Or.inr ⟨r, rfl, rfl⟩

/-- The retries value the store persists for an HTTP enqueue: the edge
substitutes 5 for `max_retries ≤ 0`, making the store-side zero check a
no-op. -/
lemma retries_floor (mr : Int) :
    (if (if mr ≤ 0 then (5 : Int) else mr) = 0 then (5 : Int)
      else if mr ≤ 0 then 5 else mr) = if mr ≤ 0 then 5 else mr := by
  by_cases hle : mr ≤ 0
  · simp [hle]
  · have h0 : ¬ mr = 0 := by omega
    simp [hle, h0]

/-- C10.  The HTTP edge substitutes the default 5 for any `max_retries ≤ 0`
(negative values included), so a message created through the HTTP interface
always has `max_retries ≥ 1`; for `max_retries ≤ 0` the created row carries
exactly 5. -/
theorem http_enqueue_max_retries_floor (db : DB) (q : String)
    (body : List Char) (delayMs mr : Int) (dlq traceId : Option String)
    (now : Int) :
    (∀ m ∈ (handleEnqueue db q body delayMs mr dlq traceId now).1.rows,
       m ∈ db.rows ∨ 1 ≤ m.maxRetries) ∧
    (mr ≤ 0 →
      ∀ m ∈ (handleEnqueue db q body delayMs mr dlq traceId now).1.rows,
        m ∈ db.rows ∨ m.maxRetries = 5) := by
  rcases handleEnqueue_db db q body delayMs mr dlq traceId now with
    heq | ⟨r, he, heq⟩
  · rw [heq]
    exact ⟨fun m hm => Or.inl hm, fun _ m hm => Or.inl hm⟩
  · rcases storeEnqueue_some
      (show storeEnqueue db q body delayMs (if mr ≤ 0 then 5 else mr)
          dlq traceId now = some (r.1, r.2) by rw [he]) with
      ⟨nb, -, -, -, hdb⟩
    rw [heq, hdb]
    constructor
    · intro m hm
      rcases List.mem_append.mp hm with hold | hnew
      · exact Or.inl hold
      · right
        rcases List.mem_singleton.mp hnew with rfl
        show (1 : Int) ≤ (if (if mr ≤ 0 then (5 : Int) else mr) = 0 then
          (5 : Int) else if mr ≤ 0 then 5 else mr)
        rw [retries_floor]
        by_cases hle : mr ≤ 0
        · rw [if_pos hle]; omega
        · rw [if_neg hle]; omega
    · intro hle m hm
      rcases List.mem_append.mp hm with hold | hnew
      · exact Or.inl hold
      · right
        rcases List.mem_singleton.mp hnew with rfl
        show (if (if mr ≤ 0 then (5 : Int) else mr) = 0 then
          (5 : Int) else if mr ≤ 0 then 5 else mr) = 5
        rw [retries_floor, if_pos hle]

theorem http_enqueue_max_retries_floor_witness :
    (-3 : Int) ≤ 0 ∧
    ∀ m ∈ (handleEnqueue emptyDB "q" ("1".toList) 0 (-3) none none 0).1.rows,
      m ∈ emptyDB.rows ∨ m.maxRetries = 5 :=
  ⟨by decide,
   (http_enqueue_max_retries_floor emptyDB "q" ("1".toList) 0 (-3) none none
     0).2 (by decide)⟩

/-! ### Sweeper loop theorem -/

/-- C9 evidence.  On a failed store sweep the loop arm logs the error and
keeps running (the next tick is not skipped), but it leaves the
`sqs_sweeper_errors_total` counter untouched: `metrics.SweeperErrors` is
never incremented anywhere in the code. -/
theorem sweeper_tick_error_logs_continues_but_never_counts
    (n : Nat) (log : List String) (e : String) :
    sweeperTick n log (Except.error e) =
      (n, log ++ ["Sweeper error: " ++ e], true) := rfl

theorem sweeper_tick_error_witness :
    (sweeperTick 0 [] (Except.error "connection refused")).1 = 0 ∧
    (sweeperTick 0 [] (Except.error "connection refused")).2.2 = true := by
  rw [sweeper_tick_error_logs_continues_but_never_counts 0 []
    "connection refused"]
  exact ⟨rfl, rfl⟩

/-! ### The not_before invariant (C8) -/

/-- The spec invariant `not_before ≥ enqueued_at`, rowwise. -/
def NotBeforeInv (db : DB) : Prop := ∀ m ∈ db.rows, m.enqueuedAt ≤ m.notBefore

/-- The storage clock does not lag any stored row's `enqueued_at` (Postgres
`now()` is monotone within the engine). -/
def ClockBound (db : DB) (now : Int) : Prop := ∀ m ∈ db.rows, m.enqueuedAt ≤ now

/-- C8 as stated fails on the code: the HTTP edge never validates `delay`, so
a negative delay produces a committed row with `not_before < enqueued_at`. -/
theorem http_enqueue_negative_delay_breaks_invariant :
    (handleEnqueue emptyDB "q" ("1".toList) (-1000) 0 none none 0).2.1 = 201 ∧
    ∃ m ∈ (handleEnqueue emptyDB "q" ("1".toList) (-1000) 0 none none 0).1.rows,
      m.notBefore < m.enqueuedAt :=
  ⟨rfl, ⟨_, List.Mem.head _, by decide⟩⟩

/-- C8 amended: for `delay ≥ 0` an HTTP enqueue establishes
`not_before ≥ enqueued_at` on every row, and Claim, Ack and Sweep preserve
the invariant (the sweep's DLQ inserts stamp `not_before = now()`, which
keeps the invariant whenever the engine clock is not behind the stored
rows). -/
theorem not_before_ge_enqueued_at_invariant (db : DB) (q : String)
    (body : List Char) (delayMs mr : Int) (dlq traceId : Option String)
    (now : Int) (id : Nat) (lim vis : Int) :
    (NotBeforeInv db → 0 ≤ delayMs →
      NotBeforeInv (handleEnqueue db q body delayMs mr dlq traceId now).1) ∧
    (NotBeforeInv db →
      ∀ db' res, storeClaim db q lim vis now = some (db', res) →
        NotBeforeInv db') ∧
    (NotBeforeInv db → NotBeforeInv (storeAck db id).1) ∧
    (NotBeforeInv db → ClockBound db now →
      NotBeforeInv (storeSweeper db now).1) := by
  refine ⟨?_, ?_, ?_, ?_⟩
  · intro hinv hdel
    rcases handleEnqueue_db db q body delayMs mr dlq traceId now with
      heq | ⟨r, he, heq⟩
    · rw [heq]; exact hinv
    · rcases storeEnqueue_some
        (show storeEnqueue db q body delayMs (if mr ≤ 0 then 5 else mr)
            dlq traceId now = some (r.1, r.2) by rw [he]) with
        ⟨nb, -, -, -, hdb⟩
      rw [heq, hdb]
      intro m hm
      rcases List.mem_append.mp hm with hold | hnew
      · exact hinv m hold
      · rcases List.mem_singleton.mp hnew with rfl
        show now ≤ now + delayMs
        omega
  · intro hinv db' res h
    rcases storeClaim_some h with ⟨-, hdb', -⟩
    rw [hdb']
    intro m hm
    rcases List.mem_map.mp hm with ⟨m0, hm0, heq⟩
    have := hinv m0 hm0
    subst heq
    split
    · exact this
    · exact this
  · intro hinv m hm
    exact hinv m (List.mem_of_mem_filter hm)
  · intro hinv hclock
    intro m hm
    rw [sweeper_rows] at hm
    have hpre : ∀ m' ∈ (sqlSweeperRequeueRun db now).1.rows,
        m'.enqueuedAt ≤ m'.notBefore ∧ m'.enqueuedAt ≤ now := by
      intro m' hm'
      rcases List.mem_map.mp hm' with ⟨m0, hm0, heq⟩
      subst heq
      constructor
      · split
        · exact hinv m0 hm0
        · exact hinv m0 hm0
      · split
        · exact hclock m0 hm0
        · exact hclock m0 hm0
    rcases List.mem_append.mp hm with hsurv | hins
    · exact (hpre m (List.mem_of_mem_filter hsurv)).1
    · rcases List.mem_map.mp hins with ⟨p, hp, heq⟩
      have hp2 : p.2 ∈ ((sqlSweeperRequeueRun db now).1.rows.filter
          (dlqEligible now)) := by
        rcases p with ⟨i, a⟩
        have := List.mem_enum_iff_getElem?.mp hp
        exact List.getElem?_mem this
      have := (hpre p.2 (List.mem_of_mem_filter hp2)).2
      subst heq
      show p.2.enqueuedAt ≤ now
      exact this

theorem not_before_ge_enqueued_at_invariant_witness :
    NotBeforeInv wDB ∧ (0 : Int) ≤ 2000 ∧
    NotBeforeInv (handleEnqueue wDB "q" ("1".toList) 2000 0 none none 5).1 :=
  ⟨by unfold NotBeforeInv; decide, by decide,
   (not_before_ge_enqueued_at_invariant wDB "q" ("1".toList) 2000 0 none none
      5 0 1 30000).1 (by unfold NotBeforeInv; decide) (by decide)⟩

/-! ### Body round trip (C7) -/

/-- Enqueue a body into an empty table over the HTTP edge, claim it back, and
serialize the returned bodies exactly as the receive handler does. -/
def roundTripBodies (b : List Char) : Option (List (List Char)) :=
  match storeClaim (handleEnqueue emptyDB "q" b 0 0 none none 0).1
      "q" 32 30000 0 with
  | some (_, res) => some (res.map receivedBody)
  | none => none

/-- A well-formed JSON body that is not in jsonb canonical text form. -/
def c7body : List Char := "\x7b\"b\":1,\"a\":2\x7d".toList

/-- C7 fails as stated: the `JSONB` column normalizes the stored document
(here: object key order and layout), so the body read back from Claim is not
byte-identical to the accepted enqueue body. -/
theorem enqueue_claim_body_not_byte_identical :
    roundTripBodies c7body = some ["\x7b\"a\": 2, \"b\": 1\x7d".toList] ∧
    "\x7b\"a\": 2, \"b\": 1\x7d".toList ≠ c7body := by
  constructor
  · decide
  · decide

/-- C7 amended: the body Claim returns is the jsonb normalization of the
accepted enqueue bytes, so the round trip is byte-identical exactly when the
body is already in jsonb canonical text form. -/
theorem enqueue_claim_body_roundtrip_canonical (b : List Char)
    (hne : b ≠ []) (hnull : b ≠ "null".toList)
    (hcanon : jsonbNormalize b = some b) :
    roundTripBodies b = some [b] := by
  unfold roundTripBodies handleEnqueue storeEnqueue
  rw [if_neg (by decide : ¬ ("q" : String) = "")]
  rw [if_neg (not_or.mpr ⟨hne, hnull⟩)]
  rw [hcanon]
  rfl

theorem enqueue_claim_body_roundtrip_canonical_witness :
    ("\x7b\"a\": 2\x7d".toList ≠ ([] : List Char)) ∧
    "\x7b\"a\": 2\x7d".toList ≠ "null".toList ∧
    jsonbNormalize "\x7b\"a\": 2\x7d".toList =
      some "\x7b\"a\": 2\x7d".toList ∧
    roundTripBodies "\x7b\"a\": 2\x7d".toList =
      some ["\x7b\"a\": 2\x7d".toList] :=
  ⟨by decide, by decide, by decide,
   enqueue_claim_body_roundtrip_canonical ("\x7b\"a\": 2\x7d".toList)
     (by decide) (by decide) (by decide)⟩

/-! ### No-double-claim machinery (C1) -/

/-- The id is absent from the table or held only under a lease. -/
def idLeasedOrGone (db : DB) (i : Nat) : Prop :=
  ∀ m ∈ db.rows, m.id = i → m.leaseUntil ≠ none

lemma pick_not_mem_of_leasedOrGone {db : DB} {q : String} {now : Int}
    {locked : List Nat} {lim : Nat} {i : Nat} (h : idLeasedOrGone db i) :
    i ∉ sqlClaimPick db q now locked lim := by
  intro hmem
  rcases of_mem_pick hmem with ⟨m, hm, hid, havail, -⟩
  exact h m hm hid (availableIn_iff.mp havail).2.1

/-- A claim changes only lease and delivery count: ids and the id sequence
are untouched. -/
lemma claim_ids_stable {db db' : DB} {q : String} {lim vis now : Int}
    {res : List Message} (h : storeClaim db q lim vis now = some (db', res)) :
    db'.rows.map (fun m => m.id) = db.rows.map (fun m => m.id) ∧
      db'.nextId = db.nextId := by
  rcases storeClaim_some h with ⟨-, hdb', -⟩
  subst hdb'
  refine ⟨?_, rfl⟩
  rw [List.map_map]
  apply List.map_congr_left
  intro m _
  by_cases hp : m.id ∈ sqlClaimPick db q now [] lim.toNat
  · simp [hp]
  · simp [hp]

lemma claim_wf {db db' : DB} {q : String} {lim vis now : Int}
    {res : List Message} (hwf : WF db)
    (h : storeClaim db q lim vis now = some (db', res)) : WF db' := by
  constructor
  · rw [(claim_ids_stable h).1]
    exact hwf.1
  · rcases storeClaim_some h with ⟨-, hdb', -⟩
    subst hdb'
    intro m hm
    rcases List.mem_map.mp hm with ⟨m0, hm0, heq⟩
    have := hwf.2 m0 hm0
    subst heq
    by_cases hp : m0.id ∈ sqlClaimPick db q now [] lim.toNat
    · simpa [hp] using this
    · simpa [hp] using this

/-- After a claim commits, every id it returned is held under a lease. -/
lemma claim_leasedOrGone {db db' : DB} {q : String} {lim vis now : Int}
    {res : List Message} (h : storeClaim db q lim vis now = some (db', res))
    {m : Message} (hm : m ∈ res) : idLeasedOrGone db' m.id := by
  rcases storeClaim_some h with ⟨-, hdb', hres⟩
  have hmpick : m.id ∈ sqlClaimPick db q now [] lim.toNat := by
    rw [hres] at hm
    rcases List.mem_map.mp hm with ⟨m1, hm1, hleq⟩
    have hdec := (List.mem_filter.mp hm1).2
    rw [← hleq]
    exact of_decide_eq_true hdec
  subst hdb'
  intro m' hm' hid
  rcases List.mem_map.mp hm' with ⟨m0, hm0, heq⟩
  subst heq
  by_cases hp : m0.id ∈ sqlClaimPick db q now [] lim.toNat
  · rw [if_pos hp]
    simp [claimLease]
  · rw [if_neg hp] at hid ⊢
    exact absurd (hid ▸ hmpick) hp

lemma claim_res_id_lt {db db' : DB} {q : String} {lim vis now : Int}
    {res : List Message} (hwf : WF db)
    (h : storeClaim db q lim vis now = some (db', res)) {m : Message}
    (hm : m ∈ res) : m.id < db'.nextId := by
  rcases mem_claim_res hwf h hm with ⟨m0, hm0, hid0, -, -⟩
  have h1 := hwf.2 m0 hm0
  have h2 := (claim_ids_stable h).2
  omega

lemma enqueue_wf {db db' : DB} {q : String} {body : List Char}
    {delay mr0 : Int} {dlq traceId : Option String} {now : Int} {nid : Nat}
    (hwf : WF db)
    (h : storeEnqueue db q body delay mr0 dlq traceId now = some (db', nid)) :
    WF db' ∧ db.nextId ≤ db'.nextId := by
  rcases storeEnqueue_some h with ⟨nb, -, -, -, hdb⟩
  subst hdb
  refine ⟨⟨?_, ?_⟩, by simp⟩
  · rw [List.map_append, List.nodup_append]
    refine ⟨hwf.1, List.nodup_singleton _, ?_⟩
    intro a ha hb
    rcases List.mem_map.mp ha with ⟨m0, hm0, hid0⟩
    have h1 := hwf.2 m0 hm0
    have h2 : a = db.nextId := List.mem_singleton.mp hb
    omega
  · intro m hm
    show m.id < db.nextId + 1
    rcases List.mem_append.mp hm with hold | hnew
    · have := hwf.2 m hold
      omega
    · rcases List.mem_singleton.mp hnew with rfl
      simp

lemma ack_wf {db : DB} (hwf : WF db) (id : Nat) : WF (storeAck db id).1 := by
  constructor
  · have hsub : List.Sublist
        ((db.rows.filter (fun m => !(decide (m.id = id)))).map (fun m => m.id))
        (db.rows.map (fun m => m.id)) :=
      (List.filter_sublist db.rows).map (fun m => m.id)
    exact hsub.nodup hwf.1
  · intro m hm
    exact hwf.2 m (List.mem_of_mem_filter hm)

lemma applyOp_nonsweep_wf {db : DB} {op : Op} (hns : op.isSweep = false)
    (hwf : WF db) :
    WF (applyOp db op) ∧ db.nextId ≤ (applyOp db op).nextId := by
  cases op with
  | enq q b d mr dl tr now =>
    cases he : storeEnqueue db q b d mr dl tr now with
    | none => simp only [applyOp, he]; exact ⟨hwf, le_refl _⟩
    | some r =>
      simp only [applyOp, he]
      exact enqueue_wf hwf
        (show storeEnqueue db q b d mr dl tr now = some (r.1, r.2) by rw [he])
  | claimOp q l v now =>
    cases hc : storeClaim db q l v now with
    | none => simp only [applyOp, hc]; exact ⟨hwf, le_refl _⟩
    | some r =>
      simp only [applyOp, hc]
      have h' : storeClaim db q l v now = some (r.1, r.2) := by rw [hc]
      exact ⟨claim_wf hwf h', (claim_ids_stable h').2.ge⟩
  | ackOp id => simp only [applyOp]; exact ⟨ack_wf hwf id, le_refl _⟩
  | sweepOp now => simp [Op.isSweep] at hns

lemma applyOp_nonsweep_leasedOrGone {db : DB} {op : Op}
    (hns : op.isSweep = false) (hwf : WF db) {i : Nat} (hi : i < db.nextId)
    (h : idLeasedOrGone db i) : idLeasedOrGone (applyOp db op) i := by
  cases op with
  | enq q b d mr dl tr now =>
    cases he : storeEnqueue db q b d mr dl tr now with
    | none => simp only [applyOp, he]; exact h
    | some r =>
      simp only [applyOp, he]
      rcases storeEnqueue_some
        (show storeEnqueue db q b d mr dl tr now = some (r.1, r.2) by
          rw [he]) with ⟨nb, -, -, -, hdb⟩
      rw [hdb]
      intro m hm hid
      rcases List.mem_append.mp hm with hold | hnew
      · exact h m hold hid
      · rcases List.mem_singleton.mp hnew with rfl
        simp at hid
        omega
  | claimOp q l v now =>
    cases hc : storeClaim db q l v now with
    | none => simp only [applyOp, hc]; exact h
    | some r =>
      simp only [applyOp, hc]
      have h' : storeClaim db q l v now = some (r.1, r.2) := by rw [hc]
      rcases storeClaim_some h' with ⟨-, hdb', -⟩
      rw [hdb']
      intro m hm hid
      rcases List.mem_map.mp hm with ⟨m0, hm0, heq⟩
      subst heq
      by_cases hp : m0.id ∈ sqlClaimPick db q now [] l.toNat
      · rw [if_pos hp]
        simp [claimLease]
      · rw [if_neg hp] at hid ⊢
        exact h m0 hm0 hid
  | ackOp id =>
    simp only [applyOp]
    unfold storeAck
    intro m hm hid
    exact h m (List.mem_of_mem_filter hm) hid
  | sweepOp now => simp [Op.isSweep] at hns

lemma applyOps_nonsweep_preserves {ops : List Op} {db : DB} {i : Nat}
    (hns : ∀ op ∈ ops, op.isSweep = false) (hwf : WF db) (hi : i < db.nextId)
    (h : idLeasedOrGone db i) :
    WF (applyOps db ops) ∧ i < (applyOps db ops).nextId ∧
      idLeasedOrGone (applyOps db ops) i := by
  induction ops generalizing db with
  | nil => exact ⟨hwf, hi, h⟩
  | cons op rest ih =>
    have hop : op.isSweep = false := hns op (List.mem_cons_self op rest)
    have hrest : ∀ o ∈ rest, o.isSweep = false :=
      fun o ho => hns o (List.mem_cons_of_mem op ho)
    have hstep := applyOp_nonsweep_wf hop hwf
    have hlg := applyOp_nonsweep_leasedOrGone hop hwf hi h
    have hrec :=
      ih hrest hstep.1 (lt_of_lt_of_le hi hstep.2) hlg
    simpa [applyOps] using hrec

/-- C1.  Skip-locked claiming never selects (hence never waits on) a row a
concurrent claim holds locked; two concurrent claims on the same table
return disjoint id sets; and once a Claim has returned an id, no later Claim
returns it across any sweep-free sequence of store operations — an Ack only
removes the row, and only a sweep can make the id claimable again. -/
theorem no_double_claim_until_ack_or_sweep (db : DB) (hwf : WF db)
    (q : String) (lim vis now : Int) :
    (∀ (q2 : String) (now2 : Int) (locked : List Nat) (lim2 : Nat) (i : Nat),
       i ∈ sqlClaimPick db q2 now2 locked lim2 → i ∉ locked) ∧
    (∀ (q2 : String) (now2 now1 : Int) (lim1 lim2 : Nat) (i : Nat),
       i ∈ sqlClaimPick db q now1 [] lim1 →
       i ∉ sqlClaimPick db q2 now2 (sqlClaimPick db q now1 [] lim1) lim2) ∧
    (∀ db' res, storeClaim db q lim vis now = some (db', res) →
       ∀ ops : List Op, (∀ op ∈ ops, op.isSweep = false) →
       ∀ m ∈ res, ∀ (q3 : String) (lim3 vis3 now3 : Int) (db3 : DB)
         (res3 : List Message),
         storeClaim (applyOps db' ops) q3 lim3 vis3 now3 = some (db3, res3) →
         ∀ m3 ∈ res3, m3.id ≠ m.id) := by
  refine ⟨?_, ?_, ?_⟩
  · intro q2 now2 locked lim2 i hmem
    rcases of_mem_pick hmem with ⟨-, -, -, -, hnl⟩
    exact hnl
  · intro q2 now2 now1 lim1 lim2 i h1 h2
    rcases of_mem_pick h2 with ⟨-, -, -, -, hnl⟩
    exact hnl h1
  · intro db' res hclaim ops hns m hm q3 lim3 vis3 now3 db3 res3 hclaim3
      m3 hm3 heq
    have hwf' : WF db' := claim_wf hwf hclaim
    have hi : m.id < db'.nextId := claim_res_id_lt hwf hclaim hm
    have hlg : idLeasedOrGone db' m.id := claim_leasedOrGone hclaim hm
    rcases applyOps_nonsweep_preserves hns hwf' hi hlg with ⟨hwf'', -, hlg''⟩
    rcases mem_claim_res hwf'' hclaim3 hm3 with ⟨m0, hm0, hid0, havail, -⟩
    rcases availableIn_iff.mp havail with ⟨-, hnone, -⟩
    exact hlg'' m0 hm0 (by rw [hid0, heq]) hnone

def wRow1 : Message := { wMsg with id := 1 }

def wDB2 : DB := { nextId := 2, rows := [wMsg, wRow1] }

def wRow1c : Message := { wRow1 with leaseUntil := some 40000, deliveryCount := 1 }

def wDB2c : DB := { nextId := 2, rows := [wClaimedRow, wRow1] }

lemma wDB2_wf : WF wDB2 := ⟨by decide, by decide⟩

theorem no_double_claim_until_ack_or_sweep_witness :
    WF wDB2 ∧
    storeClaim wDB2 "q" 1 30000 0 = some (wDB2c, [wClaimedRow]) ∧
    storeClaim wDB2c "q" 1 30000 10000 =
      some ({ nextId := 2, rows := [wClaimedRow, wRow1c] }, [wRow1c]) ∧
    wRow1c.id ≠ wClaimedRow.id :=
  ⟨wDB2_wf, by decide, by decide,
   (no_double_claim_until_ack_or_sweep wDB2 wDB2_wf "q" 1 30000 0).2.2 wDB2c
     [wClaimedRow] (by decide) [] (fun _ hc => absurd hc (List.not_mem_nil _))
     wClaimedRow (List.Mem.head _) "q" 1 30000 10000
     { nextId := 2, rows := [wClaimedRow, wRow1c] } [wRow1c] (by decide)
     wRow1c (List.Mem.head _)⟩

/-! ### Result order of a single Claim (C3) -/

def wRow1C : Message := { wRow1 with leaseUntil := some 30000, deliveryCount := 1 }

def wBothDB : DB := { nextId := 2, rows := [wClaimedRow, wRow1C] }

/-- C3 fails as a guarantee of the code: `sqlClaim` orders only the `picked`
CTE, while the outer `SELECT * FROM updated` has no ORDER BY, so a legal
execution may emit the claimed rows in any order.  Here a two-row claim is
emitted with ids descending, and its id list is not strictly increasing. -/
theorem claim_result_order_not_guaranteed :
    claimExec wDB2 "q" 2 30000 0 wBothDB [wRow1C, wClaimedRow] ∧
    ¬ List.Pairwise (fun a b => a < b)
        ([wRow1C, wClaimedRow].map (fun m => m.id)) :=
  ⟨⟨[wClaimedRow, wRow1C], by decide, List.Perm.swap wClaimedRow wRow1C []⟩,
   by decide⟩

/-- C3 amended.  Within a single Claim the *selection* is made in increasing
id order: in every execution the SQL permits — any emit order of the
unordered outer SELECT — the returned ids are distinct and form a
permutation of a strictly increasing list.  The order of the result list
itself is not guaranteed by the code. -/
theorem claim_selection_ids_ascending_up_to_emit_order (db db' : DB)
    (q : String) (lim vis now : Int) (res : List Message) (hwf : WF db)
    (h : claimExec db q lim vis now db' res) :
    ∃ ids : List Nat, List.Perm (res.map (fun m => m.id)) ids ∧
      List.Pairwise (fun a b => a < b) ids := by
  rcases h with ⟨res0, h0, hperm⟩
  exact ⟨res0.map (fun m => m.id), hperm.map (fun m => m.id),
    claim_res_strict_mono hwf h0⟩

theorem claim_selection_ids_ascending_up_to_emit_order_witness :
    WF wDB2 ∧
    claimExec wDB2 "q" 2 30000 0 wBothDB [wRow1C, wClaimedRow] ∧
    ∃ ids : List Nat,
      List.Perm ([wRow1C, wClaimedRow].map (fun m => m.id)) ids ∧
      List.Pairwise (fun a b => a < b) ids :=
  ⟨wDB2_wf,
   ⟨[wClaimedRow, wRow1C], by decide, List.Perm.swap wClaimedRow wRow1C []⟩,
   claim_selection_ids_ascending_up_to_emit_order wDB2 wBothDB "q" 2 30000 0
     [wRow1C, wClaimedRow] wDB2_wf
     ⟨[wClaimedRow, wRow1C], by decide, List.Perm.swap wClaimedRow wRow1C []⟩⟩

end SqsLite
